import Mathlib

/-!
Verification of the relm event-stream core (`relm-core/src/lib.rs`).

The shared state `_EventStream<MSG>` (lib.rs lines 58-64) holds a FIFO queue
of events, a lock flag, an observer list, an optional waiting task handle and
a terminated flag.  The operations `close`, `emit`, `get_event`, `lock`,
`Lock::drop`, `observe` and `Stream::poll` are embedded as pure state
transformers below.  Observer invocations and task notifications are side
effects outside the shared state; each operation therefore also returns a
trace of the externally visible events (task notifications, observer
invocations, queue appends) in the order the source performs them.

Two levels of modelling are used:
* `StreamState`: observers are opaque identifiers; their invocation is
  recorded in the trace but they have no effect on the state.  This level
  matches the source exactly for every state field and is used for the
  claims that do not concern reentrant observer behaviour.
* `RState` (further below): observers carry behaviours that may reentrantly
  register further observers or emit further messages, modelling that an
  observer closure may call `observe`/`emit` on the same stream; reentrant
  emit depth is bounded by explicit fuel.
-/

namespace Relm

/-- Task handles (`futures::task::Task`) are opaque; we identify them by number. -/
abbrev TaskId := Nat

/-- Opaque observer identifiers for the first modelling level (the source
stores `Rc<Fn(&MSG)>` closures; here only their identity and invocation
order matter). -/
abbrev ObsId := Nat

/-- Externally visible side effects of the operations, in the order the
source code performs them: `task.notify()`, a call `observer(&event)`, and
`events.push_back(event)`. -/
inductive Ev (MSG : Type) where
  | notify (t : TaskId)
  | invoke (o : ObsId) (m : MSG)
  | append (m : MSG)
deriving DecidableEq, Repr

/-- The shared mutable record `_EventStream<MSG>` (lib.rs lines 58-64).
`events` is the `VecDeque` with its front at the head of the list. -/
structure StreamState (MSG : Type) where
  events : List MSG
  locked : Bool
  observers : List ObsId
  task : Option TaskId
  terminated : Bool
deriving DecidableEq, Repr

/-- Abstract stand-in for `std::io::Error`; the core never constructs one,
but the type is inhabited, so returning `Except.ok` is a real statement. -/
structure IoError where
  code : Nat
deriving DecidableEq, Repr

/-- The `futures 0.1` readiness type `Async<T>`. -/
inductive Async (A : Type) where
  | Ready (a : A)
  | NotReady
deriving DecidableEq, Repr

variable {MSG : Type}

/-- `EventStream::new` (lib.rs lines 81-91). -/
def new : StreamState MSG :=
  { events := [], locked := false, observers := [], task := none,
    terminated := false }

/-- `EventStream::close` (lib.rs lines 94-102): set `terminated`, notify the
waiting task if any, return `Ok(())`. -/
def close (s : StreamState MSG) :
    (StreamState MSG × List (Ev MSG)) × Except IoError Unit :=
  let s' := { s with terminated := true }
  let evs := match s'.task with
    | some t => [Ev.notify t]
    | none => []
  ((s', evs), Except.ok ())

/-- `EventStream::emit` (lib.rs lines 105-119): if not locked, first notify
the waiting task if any, then invoke each observer below the snapshotted
length in order, then push the event at the back of the queue.  At this
modelling level observers are opaque, so the loop only records the
invocations. -/
def emit (s : StreamState MSG) (m : MSG) : StreamState MSG × List (Ev MSG) :=
  if s.locked then (s, [])
  else
    let nev := match s.task with
      | some t => [Ev.notify t]
      | none => []
    let iev := s.observers.map (fun o => Ev.invoke o m)
    ({ s with events := s.events ++ [m] }, nev ++ iev ++ [Ev.append m])

/-- `EventStream::get_event` (lib.rs lines 121-123): pop the front of the
queue. -/
def get_event (s : StreamState MSG) : Option MSG × StreamState MSG :=
  match s.events with
  | [] => (none, s)
  | e :: rest => (some e, { s with events := rest })

/-- `EventStream::lock` (lib.rs lines 126-131): set `locked`; the returned
guard is represented by the capability to later apply `lockDrop`. -/
def lock (s : StreamState MSG) : StreamState MSG :=
  { s with locked := true }

/-- `<Lock as Drop>::drop` (lib.rs lines 52-56): unconditionally reset
`locked` to `false`. -/
def lockDrop (s : StreamState MSG) : StreamState MSG :=
  { s with locked := false }

/-- `EventStream::is_terminated` (lib.rs lines 133-136). -/
def is_terminated (s : StreamState MSG) : Bool :=
  s.terminated

/-- `EventStream::observe` (lib.rs lines 140-142): push the callback at the
back of the observer list. -/
def observe (s : StreamState MSG) (o : ObsId) : StreamState MSG :=
  { s with observers := s.observers ++ [o] }

/-- `<EventStream as Stream>::poll` (lib.rs lines 149-167).  `current` is
the handle `task::current()` of the polling task.  The result type mirrors
`Poll<Option<MSG>, ()>` = `Result<Async<Option<MSG>>, ()>`. -/
def poll (s : StreamState MSG) (current : TaskId) :
    StreamState MSG × Except Unit (Async (Option MSG)) :=
  if s.terminated then
    (s, Except.ok (Async.Ready none))
  else
    match s.events with
    | e :: rest =>
        ({ s with events := rest, task := none },
          Except.ok (Async.Ready (some e)))
    | [] =>
        ({ s with task := some current }, Except.ok Async.NotReady)

/-- Fold a list of messages through `emit`, keeping the final state. -/
def emitAll (s : StreamState MSG) (ms : List MSG) : StreamState MSG :=
  ms.foldl (fun s m => (emit s m).1) s

/-- Perform `k` successive polls with task handle `t`, collecting the
results. -/
def pollN (t : TaskId) : StreamState MSG → Nat → List (Except Unit (Async (Option MSG)))
  | _, 0 => []
  | s, k + 1 =>
      let r := poll s t
      r.2 :: pollN t r.1 k

/-! Basic lemmas about `emit` and `poll`. -/

theorem emit_events (s : StreamState MSG) (m : MSG) (h : s.locked = false) :
    (emit s m).1.events = s.events ++ [m] := by
  simp [emit, h]

theorem emit_fields (s : StreamState MSG) (m : MSG) :
    (emit s m).1.locked = s.locked ∧ (emit s m).1.terminated = s.terminated ∧
      (emit s m).1.observers = s.observers ∧ (emit s m).1.task = s.task := by
  by_cases h : s.locked <;> simp [emit, h]

theorem emitAll_spec (ms : List MSG) : ∀ s : StreamState MSG,
    s.locked = false →
    (emitAll s ms).events = s.events ++ ms ∧
      (emitAll s ms).locked = s.locked ∧
      (emitAll s ms).terminated = s.terminated := by
  induction ms with
  | nil => intro s h; simp [emitAll]
  | cons m ms ih =>
      intro s h
      have h1 : (emit s m).1.locked = false := by
        simpa [h] using (emit_fields s m).1
      have := ih (emit s m).1 h1
      simp only [emitAll, List.foldl_cons] at *
      refine ⟨?_, ?_, ?_⟩
      · rw [this.1, emit_events s m h]; simp
      · rw [this.2.1, h1, h]
      · rw [this.2.2, (emit_fields s m).2.1]

theorem pollN_ready (ms : List MSG) : ∀ s : StreamState MSG, ∀ t : TaskId,
    s.terminated = false → s.events = ms →
    pollN t s ms.length = ms.map (fun m => Except.ok (Async.Ready (some m))) := by
  induction ms with
  | nil => intro s t _ _; simp [pollN]
  | cons m ms ih =>
      intro s t ht he
      have hp : poll s t =
          ({ s with events := ms, task := none },
            Except.ok (Async.Ready (some m))) := by
        simp [poll, ht, he]
      simp only [List.length_cons, pollN, hp, List.map_cons]
      exact congrArg _ (ih _ t ht rfl)

/-- C1.  FIFO delivery: starting from an unlocked, non-terminated stream
with an empty queue, emitting `m1, ..., mk` and then polling `k` times (with
no intervening close) returns `Ready(Some(m1)), ..., Ready(Some(mk))`: the
messages come back in emission order, each exactly once. -/
theorem fifo_delivery (s : StreamState MSG) (ms : List MSG) (t : TaskId)
    (hl : s.locked = false) (ht : s.terminated = false) (he : s.events = []) :
    pollN t (emitAll s ms) ms.length =
      ms.map (fun m => Except.ok (Async.Ready (some m))) := by
  obtain ⟨h1, _, h3⟩ := emitAll_spec ms s hl
  exact pollN_ready ms _ t (by rw [h3, ht]) (by rw [h1, he, List.nil_append])

/-- Witness for C1 at a concrete stream and message list. -/
theorem fifo_delivery_witness :
    pollN 0 (emitAll (new : StreamState Nat) [10, 20, 30]) 3 =
      [Except.ok (Async.Ready (some 10)), Except.ok (Async.Ready (some 20)),
        Except.ok (Async.Ready (some 30))] := by
  have := fifo_delivery (new : StreamState Nat) [10, 20, 30] 0 rfl rfl rfl
  simpa using this

/-- C3.  Locked emit is a complete no-op: with `locked = true`, `emit`
returns the state unchanged and produces no side effect at all (no observer
invocation, no task notification, no queue change); the message is dropped,
not buffered. -/
theorem emit_locked_noop (s : StreamState MSG) (m : MSG) (h : s.locked = true) :
    emit s m = (s, []) := by
  simp [emit, h]

/-- Concrete locked stream for the C3 witness. -/
def exState3 : StreamState Nat :=
  { events := [4], locked := true, observers := [0], task := some 1,
    terminated := false }

/-- Witness for C3 at a concrete locked stream. -/
theorem emit_locked_noop_witness :
    exState3.locked = true ∧ emit exState3 7 = (exState3, []) :=
  ⟨rfl, emit_locked_noop _ 7 rfl⟩

/-- C4.  Termination dominates the queue: once `terminated` is true (close
has been called), a poll returns `Ready(None)` and leaves the whole state --
in particular the possibly non-empty queue -- unchanged; and `close` itself
never drains the queue. -/
theorem poll_terminated_complete (s : StreamState MSG) (t : TaskId)
    (h : s.terminated = true) :
    poll s t = (s, Except.ok (Async.Ready none)) ∧
      (close s).1.1.events = s.events := by
  exact ⟨by simp [poll, h], rfl⟩

/-- Concrete closed stream with pending messages for the C4 witness. -/
def exState4 : StreamState Nat :=
  { events := [1, 2], locked := false, observers := [], task := none,
    terminated := true }

/-- Witness for C4: a closed stream with two pending messages. -/
theorem poll_terminated_complete_witness :
    exState4.terminated = true ∧
      poll exState4 0 = (exState4, Except.ok (Async.Ready none)) :=
  ⟨rfl, (poll_terminated_complete _ 0 rfl).1⟩

/-- C5.  Suspend/resume: polling an empty, non-terminated stream stores the
caller's wake handle and reports `NotReady`; a subsequent unlocked `emit`
notifies that stored handle and the next poll returns the new message, while
a subsequent `close` also notifies it and the next poll reports complete. -/
theorem suspend_resume (s : StreamState MSG) (t t' : TaskId) (m : MSG)
    (he : s.events = []) (ht : s.terminated = false) (hl : s.locked = false) :
    (poll s t).2 = Except.ok Async.NotReady ∧
      (poll s t).1.task = some t ∧
      Ev.notify t ∈ (emit (poll s t).1 m).2 ∧
      (poll (emit (poll s t).1 m).1 t').2 = Except.ok (Async.Ready (some m)) ∧
      Ev.notify t ∈ (close (poll s t).1).1.2 ∧
      (poll (close (poll s t).1).1.1 t').2 = Except.ok (Async.Ready none) := by
  refine ⟨?_, ?_, ?_, ?_, ?_, ?_⟩ <;>
    simp [poll, emit, close, he, ht, hl]

/-- Witness for C5 on a fresh stream. -/
theorem suspend_resume_witness :
    (new : StreamState Nat).events = [] ∧
      (poll (new : StreamState Nat) 3).2 = Except.ok Async.NotReady ∧
      Ev.notify 3 ∈ (emit (poll (new : StreamState Nat) 3).1 9).2 ∧
      (poll (emit (poll (new : StreamState Nat) 3).1 9).1 4).2 =
        Except.ok (Async.Ready (some 9)) := by
  have h := suspend_resume (new : StreamState Nat) 3 4 9 rfl rfl rfl
  exact ⟨rfl, h.1, h.2.2.1, h.2.2.2.1⟩

/-- C6.  close never fails and is idempotent: it always returns `Ok(())`,
sets `terminated`, notifies a stored wake handle when one exists, a second
close leaves the state exactly as after the first, and poll never produces
its error variant. -/
theorem close_ok_idempotent (s : StreamState MSG) (t : TaskId) :
    (close s).2 = Except.ok () ∧
      (close s).1.1.terminated = true ∧
      (∀ tk, s.task = some tk → Ev.notify tk ∈ (close s).1.2) ∧
      (close (close s).1.1).1.1 = (close s).1.1 ∧
      (close (close s).1.1).2 = Except.ok () ∧
      (∃ a, (poll s t).2 = Except.ok a) := by
  refine ⟨rfl, rfl, ?_, rfl, rfl, ?_⟩
  · intro tk htk; simp [close, htk]
  · by_cases h : s.terminated
    · exact ⟨Async.Ready none, by simp [poll, h]⟩
    · cases he : s.events with
      | nil => exact ⟨Async.NotReady, by simp [poll, h, he]⟩
      | cons e rest => exact ⟨Async.Ready (some e), by simp [poll, h, he]⟩

/-- Concrete stream with a stored wake handle for the C6 witness. -/
def exState6 : StreamState Nat :=
  { events := [], locked := false, observers := [], task := some 5,
    terminated := false }

/-- Witness for C6 on a stream with a stored wake handle. -/
theorem close_ok_idempotent_witness :
    (close exState6).2 = Except.ok () ∧
      Ev.notify 5 ∈ (close exState6).1.2 := by
  have h := close_ok_idempotent exState6 0
  exact ⟨h.1, h.2.2.1 5 rfl⟩

/-- C7.  Lock guard semantics: `lock` sets the flag; releasing a guard
resets it to `false` unconditionally on any state (so releasing an inner
guard clears the flag even while an outer guard is outstanding), and an
emit performed after a release is delivered normally: observers are invoked
and the message is queued. -/
theorem lock_guard_semantics (s s' : StreamState MSG) (m : MSG) :
    lock s = { s with locked := true } ∧
      lockDrop s' = { s' with locked := false } ∧
      (emit (lockDrop s') m).1.events = s'.events ++ [m] ∧
      (emit (lockDrop s') m).2 =
        (match s'.task with | some t => [Ev.notify t] | none => []) ++
          s'.observers.map (fun o => Ev.invoke o m) ++ [Ev.append m] := by
  refine ⟨rfl, rfl, ?_, ?_⟩ <;> simp [lockDrop, emit]

/-- Concrete stream used for the C8 counterexample: one registered observer
and one waiting task handle. -/
def exState8 : StreamState Nat :=
  { events := [], locked := false, observers := [0], task := some 0,
    terminated := false }

/-- C8 counterexample: the claim says the steps of an unlocked emit are
observers first, then the queue append, and the wake notification last; on
the concrete stream `exState8` the source instead notifies the waiting task
first, so the trace is not the claimed one. -/
theorem emit_order_counterexample :
    (emit exState8 5).2 ≠ [Ev.invoke 0 5, Ev.append 5, Ev.notify 0] := by
  decide

/-- C8 (amended).  Emit step order: for every emit on an unlocked stream,
the wake notification of a stored task handle happens first, then all
registered observers are invoked in registration order, and the queue
append happens last. -/
theorem emit_order (s : StreamState MSG) (m : MSG) (h : s.locked = false) :
    (emit s m).2 =
      (match s.task with | some t => [Ev.notify t] | none => []) ++
        s.observers.map (fun o => Ev.invoke o m) ++ [Ev.append m] := by
  simp [emit, h]

/-- Witness for the amended C8 on `exState8`. -/
theorem emit_order_witness :
    exState8.locked = false ∧
      (emit exState8 5).2 = [Ev.notify 0, Ev.invoke 0 5, Ev.append 5] :=
  ⟨rfl, (emit_order exState8 5 rfl).trans (by rfl)⟩

/-- C9.  emit ignores `terminated`: on an unlocked stream that is already
terminated, emit still invokes the observers and still appends the message
to the queue. -/
theorem emit_ignores_terminated (s : StreamState MSG) (m : MSG)
    (hl : s.locked = false) (_ht : s.terminated = true) :
    (emit s m).1 = { s with events := s.events ++ [m] } ∧
      (emit s m).2 =
        (match s.task with | some t => [Ev.notify t] | none => []) ++
          s.observers.map (fun o => Ev.invoke o m) ++ [Ev.append m] := by
  constructor <;> simp [emit, hl]

/-- Concrete closed, unlocked stream for the C9 witness. -/
def exState9 : StreamState Nat :=
  { events := [], locked := false, observers := [2], task := none,
    terminated := true }

/-- Witness for C9: a closed stream still queues and dispatches. -/
theorem emit_ignores_terminated_witness :
    exState9.terminated = true ∧
      (emit exState9 8).1 = { exState9 with events := [8] } ∧
      Ev.invoke 2 8 ∈ (emit exState9 8).2 := by
  have h := emit_ignores_terminated exState9 8 rfl rfl
  refine ⟨rfl, h.1.trans (by rfl), ?_⟩
  rw [h.2]; simp [exState9]

/-!
Reentrant modelling level.  In the source an observer is an arbitrary
closure `Rc<Fn(&MSG)>` which may itself call `observe` or `emit` on the
same stream while a dispatch is in progress.  Here an observer behaviour
maps the received message to the list of reentrant stream calls it
performs; the depth of reentrant emit calls is bounded by explicit fuel
(in the source it is bounded only by the call stack).
-/

/-- A reentrant call an observer callback may perform on the stream while
being invoked: register a further observer, or emit a further message. -/
inductive RCmd (MSG : Type) : Type where
  | cobserve : (MSG → List (RCmd MSG)) → RCmd MSG
  | cemit : MSG → RCmd MSG

/-- Observer behaviour: the reentrant calls performed on each invocation. -/
abbrev Beh (MSG : Type) := MSG → List (RCmd MSG)

/-- The shared record `_EventStream<MSG>` again, with behavioural
observers. -/
structure RState (MSG : Type) where
  events : List MSG
  locked : Bool
  observers : List (Beh MSG)
  task : Option TaskId
  terminated : Bool

/-- Trace events of the reentrant model.  `invoke i m` is the call of the
observer at index `i` with message `m`; `register i` is a reentrant
`observe` pushing a new observer at index `i`; `oob i` marks an
out-of-bounds index in the dispatch loop (proved unreachable below);
`fuelOut` marks fuel exhaustion of the model. -/
inductive REv (MSG : Type) where
  | notify (t : TaskId)
  | invoke (i : Nat) (m : MSG)
  | register (i : Nat)
  | append (m : MSG)
  | oob (i : Nat)
  | fuelOut
deriving DecidableEq, Repr

/-- Run the reentrant calls performed by one observer invocation; `emitF`
interprets a reentrant `emit`. -/
def runCmdsWith (emitF : RState MSG → MSG → RState MSG × List (REv MSG)) :
    RState MSG → List (RCmd MSG) → RState MSG × List (REv MSG)
  | s, [] => (s, [])
  | s, RCmd.cobserve beh :: cs =>
      let r := runCmdsWith emitF { s with observers := s.observers ++ [beh] } cs
      (r.1, REv.register s.observers.length :: r.2)
  | s, RCmd.cemit m :: cs =>
      let r1 := emitF s m
      let r2 := runCmdsWith emitF r1.1 cs
      (r2.1, r1.2 ++ r2.2)

/-- The dispatch loop of `emit` (lib.rs lines 111-115) over the index range
snapshotted at call start: look up the observer currently at index `i`
(the list may have grown since the snapshot) and invoke it. -/
def rdispatchWith (emitF : RState MSG → MSG → RState MSG × List (REv MSG))
    (m : MSG) : List Nat → RState MSG → RState MSG × List (REv MSG)
  | [], s => (s, [])
  | i :: js, s =>
      match s.observers[i]? with
      | some beh =>
          let r1 := runCmdsWith emitF s (beh m)
          let r2 := rdispatchWith emitF m js r1.1
          (r2.1, REv.invoke i m :: (r1.2 ++ r2.2))
      | none =>
          let r2 := rdispatchWith emitF m js s
          (r2.1, REv.oob i :: r2.2)

/-- One level of `EventStream::emit` (lib.rs lines 105-119) with reentrant
observers: if not locked, notify the waiting task, run the dispatch loop
over the indices `0..len` with `len` snapshotted at call start, then append
the message at the back of the queue. -/
def remitAux (emitF : RState MSG → MSG → RState MSG × List (REv MSG))
    (s : RState MSG) (m : MSG) : RState MSG × List (REv MSG) :=
  if s.locked then (s, [])
  else
    let nev := match s.task with
      | some t => [REv.notify t]
      | none => []
    let r := rdispatchWith emitF m (List.range s.observers.length) s
    ({ r.1 with events := r.1.events ++ [m] }, nev ++ r.2 ++ [REv.append m])

/-- `EventStream::emit` with reentrant observers; `fuel` bounds the depth
of nested reentrant emit calls. -/
def remit : Nat → RState MSG → MSG → RState MSG × List (REv MSG)
  | 0, s, _ => (s, [REv.fuelOut])
  | fuel + 1, s, m => remitAux (remit fuel) s m

/-- An interpretation of reentrant emit only ever appends to the observer
list. -/
def EmitMono (emitF : RState MSG → MSG → RState MSG × List (REv MSG)) : Prop :=
  ∀ s m, ∃ tl, (emitF s m).1.observers = s.observers ++ tl

/-- An interpretation of reentrant emit never produces an out-of-bounds
marker. -/
def EmitNoOob (emitF : RState MSG → MSG → RState MSG × List (REv MSG)) : Prop :=
  ∀ s m i, REv.oob i ∉ (emitF s m).2

theorem runCmdsWith_mono (emitF : RState MSG → MSG → RState MSG × List (REv MSG))
    (h : EmitMono emitF) :
    ∀ cs s, ∃ tl, (runCmdsWith emitF s cs).1.observers = s.observers ++ tl := by
  intro cs
  induction cs with
  | nil => intro s; exact ⟨[], by simp [runCmdsWith]⟩
  | cons c cs ih =>
      intro s
      cases c with
      | cobserve beh =>
          obtain ⟨tl, htl⟩ := ih { s with observers := s.observers ++ [beh] }
          exact ⟨[beh] ++ tl, by simp [runCmdsWith, htl]⟩
      | cemit m =>
          obtain ⟨t1, ht1⟩ := h s m
          obtain ⟨t2, ht2⟩ := ih (emitF s m).1
          exact ⟨t1 ++ t2, by simp [runCmdsWith, ht2, ht1]⟩

theorem rdispatchWith_mono (emitF : RState MSG → MSG → RState MSG × List (REv MSG))
    (h : EmitMono emitF) (m : MSG) :
    ∀ js s, ∃ tl, (rdispatchWith emitF m js s).1.observers = s.observers ++ tl := by
  intro js
  induction js with
  | nil => intro s; exact ⟨[], by simp [rdispatchWith]⟩
  | cons i js ih =>
      intro s
      cases hob : s.observers[i]? with
      | some beh =>
          obtain ⟨t1, ht1⟩ := runCmdsWith_mono emitF h (beh m) s
          obtain ⟨t2, ht2⟩ := ih (runCmdsWith emitF s (beh m)).1
          exact ⟨t1 ++ t2, by simp [rdispatchWith, hob, ht2, ht1]⟩
      | none =>
          obtain ⟨t2, ht2⟩ := ih s
          exact ⟨t2, by simp [rdispatchWith, hob, ht2]⟩

theorem remit_mono (fuel : Nat) :
    ∀ (s : RState MSG) (m : MSG),
      ∃ tl, (remit fuel s m).1.observers = s.observers ++ tl := by
  induction fuel with
  | zero => intro s m; exact ⟨[], by simp [remit]⟩
  | succ fuel ih =>
      intro s m
      by_cases hl : s.locked
      · exact ⟨[], by simp [remit, remitAux, hl]⟩
      · obtain ⟨tl, htl⟩ :=
          rdispatchWith_mono (remit fuel) ih m (List.range s.observers.length) s
        exact ⟨tl, by simp [remit, remitAux, hl, htl]⟩

theorem runCmdsWith_noOob (emitF : RState MSG → MSG → RState MSG × List (REv MSG))
    (ho : EmitNoOob emitF) :
    ∀ cs s i, REv.oob i ∉ (runCmdsWith emitF s cs).2 := by
  intro cs
  induction cs with
  | nil => intro s i h; simp [runCmdsWith] at h
  | cons c cs ih =>
      intro s i h
      cases c with
      | cobserve beh =>
          simp only [runCmdsWith, List.mem_cons] at h
          rcases h with h | h
          · exact REv.noConfusion h
          · exact ih _ i h
      | cemit m =>
          simp only [runCmdsWith, List.mem_append] at h
          rcases h with h | h
          · exact ho s m i h
          · exact ih _ i h

theorem rdispatchWith_noOob (emitF : RState MSG → MSG → RState MSG × List (REv MSG))
    (hm : EmitMono emitF) (ho : EmitNoOob emitF) (m : MSG) :
    ∀ js s, (∀ i ∈ js, i < s.observers.length) →
      ∀ j, REv.oob j ∉ (rdispatchWith emitF m js s).2 := by
  intro js
  induction js with
  | nil => intro s _ j h; simp [rdispatchWith] at h
  | cons i js ih =>
      intro s hin j h
      have hi : i < s.observers.length := hin i (List.mem_cons_self i js)
      have hob : s.observers[i]? = some s.observers[i] :=
        List.getElem?_eq_getElem hi
      rw [rdispatchWith, hob] at h
      simp only [List.mem_cons, List.mem_append] at h
      rcases h with h | h | h
      · exact REv.noConfusion h
      · exact runCmdsWith_noOob emitF ho _ s j h
      · obtain ⟨tl, htl⟩ := runCmdsWith_mono emitF hm (s.observers[i] m) s
        refine ih _ ?_ j h
        intro i' hi'
        calc i' < s.observers.length := hin i' (List.mem_cons_of_mem i hi')
          _ ≤ (runCmdsWith emitF s (s.observers[i] m)).1.observers.length := by
              rw [htl]; simp

theorem remit_noOob (fuel : Nat) :
    ∀ (s : RState MSG) (m : MSG) (i : Nat), REv.oob i ∉ (remit fuel s m).2 := by
  induction fuel with
  | zero => intro s m i h; simp [remit] at h
  | succ fuel ih =>
      intro s m i h
      by_cases hl : s.locked
      · simp [remit, remitAux, hl] at h
      · rw [remit, remitAux, if_neg hl] at h
        simp only [List.mem_append, List.mem_singleton] at h
        rcases h with (h | h) | h
        · cases hc : s.task with
          | none => rw [hc] at h; simp at h
          | some t => rw [hc] at h; simp at h
        · refine rdispatchWith_noOob (remit fuel) (remit_mono fuel) ih m
            (List.range s.observers.length) s ?_ i h
          intro i' hi'
          exact List.mem_range.mp hi'
        · exact REv.noConfusion h

/-- C10.  The observer list is append-only and dispatch indexing is safe:
none of the operations (observe, emit, lock, guard release, close, poll)
removes or reorders observer entries -- each leaves the list an extension
of what it was -- and in the reentrant model, where invoked observers may
themselves call observe or emit, every index used by the dispatch loop of
`emit` is in bounds (no `oob` marker ever appears in a trace, for any fuel). -/
theorem observers_append_only_safe {MSG : Type} :
    (∀ (s : StreamState MSG) (o : ObsId),
        (observe s o).observers = s.observers ++ [o]) ∧
      (∀ (s : StreamState MSG) (m : MSG), (emit s m).1.observers = s.observers) ∧
      (∀ s : StreamState MSG, (lock s).observers = s.observers) ∧
      (∀ s : StreamState MSG, (lockDrop s).observers = s.observers) ∧
      (∀ s : StreamState MSG, (close s).1.1.observers = s.observers) ∧
      (∀ (s : StreamState MSG) (t : TaskId),
        (poll s t).1.observers = s.observers) ∧
      (∀ (fuel : Nat) (s : RState MSG) (m : MSG),
        ∃ tl, (remit fuel s m).1.observers = s.observers ++ tl) ∧
      (∀ (fuel : Nat) (s : RState MSG) (m : MSG) (i : Nat),
        REv.oob i ∉ (remit fuel s m).2) := by
  refine ⟨fun s o => rfl, fun s m => (emit_fields s m).2.2.1, fun s => rfl,
    fun s => rfl, fun s => rfl, ?_, fun fuel => remit_mono fuel,
    fun fuel => remit_noOob fuel⟩
  intro s t
  by_cases h : s.terminated
  · simp [poll, h]
  · cases he : s.events <;> simp [poll, h, he]

/-- A concrete reentrant stream: its single observer registers one fresh
observer on every invocation. -/
def exRState : RState Nat :=
  { events := [], locked := false,
    observers := [fun _ => [RCmd.cobserve (fun _ => [])]], task := some 0,
    terminated := false }

/-- Witness for C10 at concrete inputs. -/
theorem observers_append_only_safe_witness :
    (observe (new : StreamState Nat) 7).observers = [7] ∧
      (poll (new : StreamState Nat) 0).1.observers = [] ∧
      REv.oob 0 ∉ (remit 2 exRState 5).2 := by
  have h := @observers_append_only_safe Nat
  refine ⟨?_, ?_, h.2.2.2.2.2.2.2 2 exRState 5 0⟩
  · rw [h.1 new 7]; rfl
  · rw [h.2.2.2.2.2.1 new 0]; rfl

/-- A reentrant call that performs no emit: it may only register observers
whose behaviours are in turn emit-free. -/
inductive NoEmit {MSG : Type} : RCmd MSG → Prop where
  | obs (beh : Beh MSG) :
      (∀ m c, c ∈ beh m → NoEmit c) → NoEmit (RCmd.cobserve beh)

/-- Every reentrant call performed by the behaviour is emit-free. -/
def BehNoEmit (beh : Beh MSG) : Prop :=
  ∀ m c, c ∈ beh m → NoEmit c

/-- Classifier for observer-invocation trace events. -/
def isInvokeEv : REv MSG → Bool
  | REv.invoke _ _ => true
  | _ => false

/-- Classifier for queue-append trace events. -/
def isAppendEv : REv MSG → Bool
  | REv.append _ => true
  | _ => false

theorem runCmdsWith_noEmit (emitF : RState MSG → MSG → RState MSG × List (REv MSG)) :
    ∀ cs s, (∀ c ∈ cs, NoEmit c) →
      ∃ bs,
        (runCmdsWith emitF s cs).1 =
            { s with observers := s.observers ++ bs } ∧
          (∀ beh ∈ bs, BehNoEmit beh) ∧
          ∀ e ∈ (runCmdsWith emitF s cs).2, ∃ i, e = REv.register i := by
  intro cs
  induction cs with
  | nil =>
      intro s _
      refine ⟨[], by simp [runCmdsWith], by simp, by simp [runCmdsWith]⟩
  | cons c cs ih =>
      intro s hcs
      have hc : NoEmit c := hcs c (List.mem_cons_self c cs)
      cases hc with
      | obs beh hbeh =>
          obtain ⟨bs, h1, h2, h3⟩ :=
            ih { s with observers := s.observers ++ [beh] }
              (fun c' hc' => hcs c' (List.mem_cons_of_mem _ hc'))
          refine ⟨beh :: bs, ?_, ?_, ?_⟩
          · simp only [runCmdsWith]
            rw [h1]
            simp
          · intro b hb
            rcases List.mem_cons.mp hb with rfl | hb
            · exact hbeh
            · exact h2 b hb
          · simp only [runCmdsWith, List.mem_cons]
            rintro e (rfl | he)
            · exact ⟨_, rfl⟩
            · exact h3 e he

theorem rdispatchWith_noEmit (emitF : RState MSG → MSG → RState MSG × List (REv MSG))
    (m : MSG) :
    ∀ js s, (∀ beh ∈ s.observers, BehNoEmit beh) →
      (∀ i ∈ js, i < s.observers.length) →
      ∃ bs,
        (rdispatchWith emitF m js s).1 =
            { s with observers := s.observers ++ bs } ∧
          (∀ beh ∈ bs, BehNoEmit beh) ∧
          (rdispatchWith emitF m js s).2.filter isInvokeEv =
            js.map (fun i => REv.invoke i m) ∧
          ∀ e ∈ (rdispatchWith emitF m js s).2,
            (∃ i, i ∈ js ∧ e = REv.invoke i m) ∨ ∃ i, e = REv.register i := by
  intro js
  induction js with
  | nil =>
      intro s _ _
      refine ⟨[], by simp [rdispatchWith], by simp, by simp [rdispatchWith],
        by simp [rdispatchWith]⟩
  | cons i js ih =>
      intro s hobs hin
      have hi : i < s.observers.length := hin i (List.mem_cons_self i js)
      have hob : s.observers[i]? = some s.observers[i] :=
        List.getElem?_eq_getElem hi
      have hbeh : BehNoEmit (s.observers[i]) :=
        hobs _ (List.getElem_mem hi)
      obtain ⟨bs1, hr1, hbs1, htr1⟩ :=
        runCmdsWith_noEmit emitF (s.observers[i] m) s (hbeh m)
      have hobs1 : ∀ beh ∈ (runCmdsWith emitF s (s.observers[i] m)).1.observers,
          BehNoEmit beh := by
        rw [hr1]
        intro beh hbeh'
        rcases List.mem_append.mp hbeh' with h | h
        · exact hobs beh h
        · exact hbs1 beh h
      have hin1 : ∀ i' ∈ js,
          i' < (runCmdsWith emitF s (s.observers[i] m)).1.observers.length := by
        intro i' hi'
        rw [hr1]
        calc i' < s.observers.length := hin i' (List.mem_cons_of_mem i hi')
          _ ≤ (s.observers ++ bs1).length := by simp
      obtain ⟨bs2, hr2, hbs2, hf2, hm2⟩ :=
        ih (runCmdsWith emitF s (s.observers[i] m)).1 hobs1 hin1
      rw [hr1] at hr2
      refine ⟨bs1 ++ bs2, ?_, ?_, ?_, ?_⟩
      · simp only [rdispatchWith, hob]
        rw [hr1, hr2]
        simp
      · intro b hb
        rcases List.mem_append.mp hb with h | h
        · exact hbs1 b h
        · exact hbs2 b h
      · simp only [rdispatchWith, hob, List.filter_cons, List.filter_append]
        have e1 : (runCmdsWith emitF s (s.observers[i] m)).2.filter isInvokeEv
            = [] := by
          refine List.filter_eq_nil_iff.mpr ?_
          intro e he
          obtain ⟨j, rfl⟩ := htr1 e he
          simp [isInvokeEv]
        rw [e1, hf2]
        simp [isInvokeEv]
      · simp only [rdispatchWith, hob, List.mem_cons, List.mem_append]
        rintro e (rfl | he | he)
        · exact Or.inl ⟨i, Or.inl rfl, rfl⟩
        · exact Or.inr (htr1 e he)
        · rcases hm2 e he with ⟨j, hj, rfl⟩ | h
          · exact Or.inl ⟨j, Or.inr hj, rfl⟩
          · exact Or.inr h

/-- C2.  Observer dispatch: on an unlocked stream whose observers only
reentrantly register (never emit), one emit call invokes exactly the
observers registered at call start, each exactly once, in registration
order, passing the emitted message; all invocations happen before the
message is appended (the append is the last trace event and the only
append), and an observer registered during the dispatch -- its index is at
least the snapshotted count -- is never invoked for this message. -/
theorem observer_dispatch (s : RState MSG) (m : MSG) (fuel : Nat)
    (hl : s.locked = false) (hobs : ∀ beh ∈ s.observers, BehNoEmit beh) :
    (remit (fuel + 1) s m).2.filter isInvokeEv =
        (List.range s.observers.length).map (fun i => REv.invoke i m) ∧
      (∀ i m', REv.invoke i m' ∈ (remit (fuel + 1) s m).2 →
        i < s.observers.length ∧ m' = m) ∧
      (remit (fuel + 1) s m).2.filter isAppendEv = [REv.append m] ∧
      (remit (fuel + 1) s m).2.getLast? = some (REv.append m) := by
  obtain ⟨bs, hr, hbs, hf, hm⟩ :=
    rdispatchWith_noEmit (remit fuel) m (List.range s.observers.length) s hobs
      (fun i hi => List.mem_range.mp hi)
  have hnev : ∀ e ∈ (match s.task with
      | some t => [REv.notify t]
      | none => ([] : List (REv MSG))), ∃ t, e = REv.notify t := by
    cases s.task <;> simp
  rw [remit, remitAux, if_neg (by rw [hl]; exact Bool.false_ne_true)]
  refine ⟨?_, ?_, ?_, ?_⟩
  · simp only [List.filter_append, hf]
    have e1 : ∀ tr : List (REv MSG), (∀ e ∈ tr, ∃ t, e = REv.notify t) →
        tr.filter isInvokeEv = [] := by
      intro tr h
      refine List.filter_eq_nil_iff.mpr ?_
      intro e he
      obtain ⟨t, rfl⟩ := h e he
      simp [isInvokeEv]
    rw [e1 _ hnev]
    simp [isInvokeEv]
  · intro i m' hmem
    simp only [List.mem_append, List.mem_singleton] at hmem
    rcases hmem with (h | h) | h
    · obtain ⟨t, ht⟩ := hnev _ h
      exact absurd ht (by simp)
    · rcases hm _ h with ⟨j, hj, he⟩ | ⟨j, he⟩
      · obtain ⟨rfl, rfl⟩ : i = j ∧ m' = m := by
          constructor <;> cases he <;> rfl
        exact ⟨List.mem_range.mp hj, rfl⟩
      · exact absurd he (by simp)
    · exact absurd h (by simp)
  · simp only [List.filter_append, hf]
    have e1 : (match s.task with
        | some t => [REv.notify t]
        | none => ([] : List (REv MSG))).filter isAppendEv = [] := by
      cases s.task <;> simp [isAppendEv]
    have e2 : (rdispatchWith (remit fuel) m (List.range s.observers.length)
        s).2.filter isAppendEv = [] := by
      refine List.filter_eq_nil_iff.mpr ?_
      intro e he
      rcases hm e he with ⟨j, _, rfl⟩ | ⟨j, rfl⟩ <;> simp [isAppendEv]
    rw [e1, e2]
    simp [isAppendEv]
  · exact List.getLast?_concat _

/-- The single observer of `exRState` only registers and never emits. -/
theorem exRState_noEmit : ∀ beh ∈ exRState.observers, BehNoEmit beh := by
  intro beh hbeh
  have hb : beh = fun _ => [RCmd.cobserve (fun _ => [])] := by
    simpa [exRState] using hbeh
  subst hb
  intro m c hc
  have hc0 : c = RCmd.cobserve (fun _ => []) := by
    simpa using hc
  subst hc0
  refine NoEmit.obs _ ?_
  intro m' c' hc'
  simp at hc'

/-- Witness for C2 on the concrete stream `exRState`, whose one observer
reentrantly registers a fresh observer. -/
theorem observer_dispatch_witness :
    exRState.locked = false ∧
      (∀ beh ∈ exRState.observers, BehNoEmit beh) ∧
      (remit 1 exRState 5).2.filter isInvokeEv = [REv.invoke 0 5] ∧
      (remit 1 exRState 5).2.getLast? = some (REv.append 5) := by
  have h := observer_dispatch exRState 5 0 rfl exRState_noEmit
  refine ⟨rfl, exRState_noEmit, h.1.trans ?_, h.2.2.2⟩
  have hr : List.range 1 = [0] := rfl
  simp [exRState, hr]

end Relm
